import Mathlib

/-!
Verification of the quiz session engine of the marketing quiz app.

The definitions below are a shallow embedding of the client-side quiz
logic found in `src/app/notes-quiz/page.tsx` (the variant of the engine
whose sampling behaviour the design document describes).  Randomness is
made explicit: the Fisher-Yates helper takes a `Nat → Nat` oracle that
stands for the stream of `Math.floor(Math.random() * (i + 1))` draws, and
the comparator-based shuffles (`array.sort(() => 0.5 - Math.random())`)
are modelled as injected functions on lists, constrained to be
permutations where a property needs that fact.
-/

namespace Quiz

open List

/-- Model of the `Alternative` interface from `src/types.ts`. -/
structure Alternative where
  label : String
  text : String
deriving DecidableEq, Repr

/-- Model of the `Question` interface from `src/types.ts`.  The engine
code guards against records whose `alternatives` field is missing or not
an array and against a missing `pdf_filename`, so those two fields are
embedded as `Option` (with `none` standing for a missing or malformed
JSON field). -/
structure Question where
  number : String
  question_text : String
  alternatives : Option (List Alternative)
  pdf_filename : Option String
  correct_answer : String
deriving DecidableEq, Repr

/-- Model of `String.prototype.toUpperCase()` as the answer-label
comparison uses it: character-wise uppercasing (the labels in the data
are single ASCII letters).  It is defined through `List.map` so that it
evaluates by kernel reduction. -/
def jsToUpper (s : String) : String :=
  ⟨s.data.map Char.toUpper⟩

/-- JavaScript `s || d` on an optional string: the default is taken both
when the field is absent and when it is the empty string (falsy). -/
def jsOr (s : Option String) (d : String) : String :=
  match s with
  | none => d
  | some t => if t = "" then d else t

/-- Swap of two positions of a list, as the destructuring assignment
`[a[i], a[j]] = [a[j], a[i]]` performs it; out-of-range indices leave the
list unchanged. -/
def listSwap (l : List α) (i j : Nat) : List α :=
  match l[i]?, l[j]? with
  | some a, some b => (l.set i b).set j a
  | _, _ => l

/-- Loop of the Fisher-Yates shuffle from `shuffleArray`: iteration `i`
swaps position `i` with position `rand i % (i + 1)`, for `i` running from
`l.length - 1` down to `1`. -/
def fyLoop (rand : Nat → Nat) : List α → Nat → List α
  | l, 0 => l
  | l, i + 1 => fyLoop rand (listSwap l (i + 1) (rand (i + 1) % (i + 2))) i

/-- Model of `shuffleArray` (page.tsx, lines 20-27): Fisher-Yates shuffle
driven by the random oracle `rand`.  The source copies the input array
first, so the input itself is never mutated; the embedding is a pure
function, which captures that directly. -/
def shuffleArray (rand : Nat → Nat) (l : List α) : List α :=
  fyLoop rand l (l.length - 1)

/-- Model of `shuffleAlternatives` (page.tsx, lines 30-42): a question
with a missing or malformed `alternatives` field is passed through
unchanged, otherwise its alternatives are shuffled. -/
def shuffleAlternatives (rand : Nat → Nat) (q : Question) : Question :=
  match q.alternatives with
  | none => q
  | some alts => { q with alternatives := some (shuffleArray rand alts) }

/-- The list of choices of a question (empty for a malformed record). -/
def altList (q : Question) : List Alternative :=
  q.alternatives.getD []

/-! ### Permutation facts about the Fisher-Yates helper -/

theorem cons_set_perm (xs : List α) (k : Nat) (x a : α)
    (h : xs[k]? = some a) : a :: xs.set k x ~ x :: xs := by
  induction xs generalizing k with
  | nil => simp at h
  | cons y ys ih =>
    cases k with
    | zero =>
      simp only [List.getElem?_cons_zero, Option.some.injEq] at h
      subst h
      exact List.Perm.swap _ _ _
    | succ k =>
      simp only [List.getElem?_cons_succ] at h
      calc a :: (y :: ys).set (k + 1) x
          = a :: y :: ys.set k x := rfl
        _ ~ y :: a :: ys.set k x := List.Perm.swap _ _ _
        _ ~ y :: x :: ys := List.Perm.cons y (ih k h)
        _ ~ x :: y :: ys := List.Perm.swap _ _ _

theorem set_set_swap_perm (l : List α) (i j : Nat) (a b : α)
    (hi : l[i]? = some a) (hj : l[j]? = some b) :
    (l.set i b).set j a ~ l := by
  induction l generalizing i j with
  | nil => simp at hi
  | cons x xs ih =>
    cases i with
    | zero =>
      simp only [List.getElem?_cons_zero, Option.some.injEq] at hi
      subst hi
      cases j with
      | zero =>
        simp only [List.getElem?_cons_zero, Option.some.injEq] at hj
        subst hj
        exact List.Perm.refl _
      | succ k =>
        simp only [List.getElem?_cons_succ] at hj
        show b :: xs.set k x ~ x :: xs
        exact cons_set_perm xs k x b hj
    | succ m =>
      simp only [List.getElem?_cons_succ] at hi
      cases j with
      | zero =>
        simp only [List.getElem?_cons_zero, Option.some.injEq] at hj
        subst hj
        show a :: xs.set m x ~ x :: xs
        exact cons_set_perm xs m x a hi
      | succ k =>
        simp only [List.getElem?_cons_succ] at hj
        exact List.Perm.cons x (ih m k hi hj)

theorem listSwap_perm (l : List α) (i j : Nat) : listSwap l i j ~ l := by
  unfold listSwap
  split
  · next a b hi hj => exact set_set_swap_perm l i j a b hi hj
  · exact List.Perm.refl l

theorem fyLoop_perm (rand : Nat → Nat) (l : List α) (i : Nat) :
    fyLoop rand l i ~ l := by
  induction i generalizing l with
  | zero => exact List.Perm.refl l
  | succ i ih =>
    calc fyLoop rand (listSwap l (i + 1) (rand (i + 1) % (i + 2))) i
        ~ listSwap l (i + 1) (rand (i + 1) % (i + 2)) := ih _
      _ ~ l := listSwap_perm _ _ _

theorem shuffleArray_perm (rand : Nat → Nat) (l : List α) :
    shuffleArray rand l ~ l :=
  fyLoop_perm rand l (l.length - 1)

theorem shuffleAlternatives_altList_perm (rand : Nat → Nat) (q : Question) :
    altList (shuffleAlternatives rand q) ~ altList q := by
  unfold shuffleAlternatives
  split
  · exact List.Perm.refl _
  · next alts h => simp [altList, h, shuffleArray_perm]

theorem shuffleAlternatives_number (rand : Nat → Nat) (q : Question) :
    (shuffleAlternatives rand q).number = q.number := by
  unfold shuffleAlternatives
  split <;> rfl

/-! ### Claims about the shuffle helpers -/

/-- C10: the Fisher-Yates shuffle helper `shuffleArray` returns a
permutation of its input (hence of the same length and with the same
multiset of elements); since the embedding is a pure function over the
copied list, the input list itself is left unmodified by construction. -/
theorem c10_shuffleArray_perm {α : Type} (rand : Nat → Nat) (l : List α) :
    shuffleArray rand l ~ l ∧ (shuffleArray rand l).length = l.length :=
  ⟨shuffleArray_perm rand l, (shuffleArray_perm rand l).length_eq⟩

/-- C9: a question record whose `alternatives` field is missing or not an
array is returned unchanged by the choice-shuffling step, so presenting
such a record never fails (the embedding is a total function). -/
theorem c9_shuffleAlternatives_malformed (rand : Nat → Nat) (q : Question)
    (h : q.alternatives = none) : shuffleAlternatives rand q = q := by
  unfold shuffleAlternatives
  split
  · rfl
  · next alts halts => rw [h] at halts; exact absurd halts (by simp)

/-- Concrete malformed record used to instantiate C9. -/
def malformedQuestion : Question :=
  { number := "7", question_text := "q", alternatives := none,
    pdf_filename := none, correct_answer := "A" }

theorem c9_witness :
    malformedQuestion.alternatives = none ∧
      shuffleAlternatives (fun _ => 0) malformedQuestion = malformedQuestion :=
  ⟨rfl, c9_shuffleAlternatives_malformed (fun _ => 0) malformedQuestion rfl⟩

/-! ### The round state and its event handlers -/

/-- The three values the `answerStatus` state cell can hold besides
`null`. -/
inductive AnswerStatus where
  | correct
  | incorrect
  | skipped
deriving DecidableEq, Repr

/-- The mutable state cells of one quiz round, gathered into one record:
`activeQuestions` (the ordered round), `currentQuestionIndex` (the
cursor), `currentQuestion` (the presented copy, `none` once the round is
finished), `streak`, `answerStatus` / `selectedAlternativeLabel` (the
outcome pending display), `incorrectlyAnsweredQuestions` (the mistake
list) and `answerHistory` (keyed by question number). -/
structure RoundState where
  activeQuestions : List Question
  currentQuestionIndex : Nat
  currentQuestion : Option Question
  streak : Nat
  answerStatus : Option AnswerStatus
  selectedAlternativeLabel : Option String
  incorrectlyAnsweredQuestions : List Question
  answerHistory : List (String × String × Bool)
deriving DecidableEq, Repr

/-- Model of `clearFeedbackAndTimeout`: resets the outcome pending
display (the timeout handle is presentation-owned and not part of the
engine state). -/
def clearFeedback (s : RoundState) : RoundState :=
  { s with answerStatus := none, selectedAlternativeLabel := none }

/-- Insertion into the `answerHistory` record: JavaScript object spread
`\x7b...prev, [key]: v\x7d` overwrites the entry at `key` and otherwise
appends it. -/
def historyInsert (k : String) (v : String × Bool) :
    List (String × String × Bool) → List (String × String × Bool)
  | [] => [(k, v)]
  | (k', v') :: rest =>
      if k' = k then (k, v) :: rest else (k', v') :: historyInsert k v rest

/-- Model of `handleAnswer` (page.tsx, lines 271-319, state effects
only): guarded by the presence of a pending question and the absence of a
recorded outcome; records the chosen label, updates the history, bumps or
resets the streak and appends the question to the mistake list when the
answer is wrong and the question is not there yet. -/
def handleAnswer (alt : Alternative) (s : RoundState) : RoundState :=
  match s.currentQuestion, s.answerStatus with
  | some q, none =>
      let isCorrect : Bool := jsToUpper alt.label == jsToUpper q.correct_answer
      let s' := { s with
        selectedAlternativeLabel := some alt.label,
        answerHistory := historyInsert q.number (alt.label, isCorrect) s.answerHistory }
      if isCorrect then
        { s' with streak := s.streak + 1, answerStatus := some AnswerStatus.correct }
      else
        { s' with
            streak := 0
            answerStatus := some AnswerStatus.incorrect
            incorrectlyAnsweredQuestions :=
              if s.incorrectlyAnsweredQuestions.any (fun p => p.number == q.number) then
                s.incorrectlyAnsweredQuestions
              else s.incorrectlyAnsweredQuestions ++ [q] }
  | _, _ => s

/-- Model of `handleSkip` (page.tsx, lines 321-340, state effects only):
same guard as `handleAnswer`; clears the feedback cells and then marks
the position skipped. -/
def handleSkip (s : RoundState) : RoundState :=
  match s.currentQuestion, s.answerStatus with
  | some _, none =>
      { s with answerStatus := some AnswerStatus.skipped,
               selectedAlternativeLabel := none }
  | _, _ => s

/-- Model of `loadNextQuestion` (page.tsx, lines 252-269): clears the
feedback cells, then either advances the cursor and presents the next
question with freshly shuffled choices, or ends the round by clearing
`currentQuestion`. -/
def loadNextQuestion (rand : Nat → Nat) (skipped : Bool) (s : RoundState) : RoundState :=
  let s' := clearFeedback s
  if 0 < s'.activeQuestions.length ∧
      s'.currentQuestionIndex < s'.activeQuestions.length - 1 then
    match s'.activeQuestions[s'.currentQuestionIndex + 1]? with
    | some nq =>
        { s' with currentQuestionIndex := s'.currentQuestionIndex + 1,
                  currentQuestion := some (shuffleAlternatives rand nq) }
    | none => { s' with currentQuestion := none }
  else { s' with currentQuestion := none }

/-- Model of `handleGoBack` (page.tsx, lines 342-349): guarded only by
`currentQuestionIndex > 0`; clears the feedback cells, decrements the
cursor and re-presents the previous question with freshly shuffled
choices. -/
def handleGoBack (rand : Nat → Nat) (s : RoundState) : RoundState :=
  if 0 < s.currentQuestionIndex then
    let s' := clearFeedback s
    match s'.activeQuestions[s'.currentQuestionIndex - 1]? with
    | some pq =>
        { s' with currentQuestionIndex := s'.currentQuestionIndex - 1,
                  currentQuestion := some (shuffleAlternatives rand pq) }
    | none =>
        { s' with currentQuestionIndex := s'.currentQuestionIndex - 1,
                  currentQuestion := none }
  else s

/-- One user-initiated engine event; the `Nat → Nat` payloads are the
random oracles consumed by the choice reshuffling of the corresponding
handler. -/
inductive EngineOp where
  | answer (alt : Alternative)
  | skip
  | advance (rand : Nat → Nat) (skipped : Bool)
  | back (rand : Nat → Nat)

/-- Dispatch of one engine event to its handler. -/
def stepOp : EngineOp → RoundState → RoundState
  | EngineOp.answer alt, s => handleAnswer alt s
  | EngineOp.skip, s => handleSkip s
  | EngineOp.advance rand skipped, s => loadNextQuestion rand skipped s
  | EngineOp.back rand, s => handleGoBack rand s

/-- A run of in-round engine events, oldest first. -/
def runOps (ops : List EngineOp) (s : RoundState) : RoundState :=
  ops.foldl (fun s op => stepOp op s) s

/-- States whose feedback cells are cleared whenever no question is
pending; every state the engine can actually reach satisfies this. -/
def FeedbackInv (s : RoundState) : Prop :=
  s.currentQuestion = none →
    s.answerStatus = none ∧ s.selectedAlternativeLabel = none

/-! ### Round construction: grouping, sampling and the fallback -/

/-- Topic key used by the stratified path and for counting sources:
`q.pdf_filename || "notes_quiz"` (page.tsx, lines 53 and 161). -/
def sessionKeyAll (q : Question) : String :=
  jsOr q.pdf_filename "notes_quiz"

/-- Topic key used when filtering by a selected topic:
`q.pdf_filename || "Unknown Source"` (page.tsx, line 180). -/
def sessionKeyFilter (q : Question) : String :=
  jsOr q.pdf_filename "Unknown Source"

/-- Append `q` to the group keyed `k`, creating the group at the end of
the list when it is absent — the order of the groups is the insertion
order of their keys, as `Object.values` of a string-keyed object
enumerates them. -/
def insertByKey (k : String) (q : Question) :
    List (String × List Question) → List (String × List Question)
  | [] => [(k, [q])]
  | (k', qs) :: rest =>
      if k' = k then (k', qs ++ [q]) :: rest
      else (k', qs) :: insertByKey k q rest

/-- One step of the `allQuestions.forEach` loop that builds
`questionsBySession`. -/
def groupStep (key : Question → String) (acc : List (String × List Question))
    (q : Question) : List (String × List Question) :=
  insertByKey (key q) q acc

/-- The `questionsBySession` record of `getSampledQuestions`, as the
ordered list of its (key, group) entries. -/
def questionsBySession (key : Question → String) (l : List Question) :
    List (String × List Question) :=
  l.foldl (groupStep key) []

/-- Model of `getSampledQuestions` (page.tsx, lines 46-68): group the
pool by `sessionKeyAll`, take up to `questionsPerSession` from an
(injected) shuffle of each group, concatenate, and shuffle the result.
`shufGroup` is keyed by the group name so that each group gets its own
random draw. -/
def getSampledQuestions (shufGroup : String → List Question → List Question)
    (shufFinal : List Question → List Question)
    (allQuestions : List Question) (questionsPerSession : Nat) : List Question :=
  shufFinal
    (((questionsBySession sessionKeyAll allQuestions).map
        (fun g => (shufGroup g.1 g.2).take questionsPerSession)).flatten)

/-- Ceiling division on naturals, as `Math.ceil(a / b)` computes it for
positive `b`. -/
def ceilDiv (a b : Nat) : Nat := (a + b - 1) / b

/-- The question list `startNewQuizRound` computes before its fallback
(page.tsx, lines 156-185): for `"all"` the stratified sample truncated to
`numQuestions`, otherwise the topic-filtered pool shuffled and
truncated. -/
def sampledForSession (shufGroup : String → List Question → List Question)
    (shufFinal shufTopic : List Question → List Question)
    (allQuestions : List Question) (session : String) (numQuestions : Nat) :
    List Question :=
  if session = "all" then
    let c := ((allQuestions.map sessionKeyAll).toFinset).card
    let numUniqueSources := if 0 < c then c else 1
    (getSampledQuestions shufGroup shufFinal allQuestions
        (ceilDiv numQuestions numUniqueSources)).take numQuestions
  else
    (shufTopic (allQuestions.filter
        (fun q => sessionKeyFilter q == session))).take numQuestions

/-- The final `questionsForRound` value including the fallback (page.tsx,
lines 190-198): when sampling yields nothing although the pool is
non-empty and `numQuestions > 0`, re-sample
`min(numQuestions, min(5, pool.length))` questions from the whole
pool. -/
def questionsForRound (shufGroup : String → List Question → List Question)
    (shufFinal shufTopic shufFallback : List Question → List Question)
    (allQuestions : List Question) (session : String) (numQuestions : Nat) :
    List Question :=
  let base := sampledForSession shufGroup shufFinal shufTopic
      allQuestions session numQuestions
  if base.length = 0 ∧ 0 < allQuestions.length ∧ 0 < numQuestions then
    (shufFallback allQuestions).take
      (min numQuestions (min 5 allQuestions.length))
  else base

/-- Model of `startNewQuizRound` (page.tsx, lines 145-221): no round when
the pool is empty or when the computed question list is empty (the setup
screen stays up); otherwise a fresh state at cursor 0 presenting the
first question with shuffled choices. -/
def startNewQuizRound (shufGroup : String → List Question → List Question)
    (shufFinal shufTopic shufFallback : List Question → List Question)
    (randAlt : Nat → Nat) (allQuestions : List Question) (session : String)
    (numQuestions : Nat) : Option RoundState :=
  if allQuestions.length = 0 then none
  else
    let qs := questionsForRound shufGroup shufFinal shufTopic shufFallback
        allQuestions session numQuestions
    match qs.head? with
    | none => none
    | some q0 => some
        { activeQuestions := qs, currentQuestionIndex := 0,
          currentQuestion := some (shuffleAlternatives randAlt q0),
          streak := 0, answerStatus := none,
          selectedAlternativeLabel := none,
          incorrectlyAnsweredQuestions := [], answerHistory := [] }

/-- The stratified-sampling pipeline exactly as the specification words
it: partition the pool by topic, compute
`perGroup = ceil(size / numGroups)`, take up to `perGroup` from a shuffle
of each group, concatenate the per-group samples, shuffle the
concatenation, truncate to `size`. -/
def stratifiedSampleSpec (shufGroup : String → List Question → List Question)
    (shufFinal : List Question → List Question)
    (pool : List Question) (size : Nat) : List Question :=
  let groups := questionsBySession sessionKeyAll pool
  let perGroup := ceilDiv size groups.length
  (shufFinal
      ((groups.map (fun g => (shufGroup g.1 g.2).take perGroup)).flatten)).take size

/-- The topic filter `startRound` applies: `"all"` keeps every record,
any other value keeps the records whose key matches exactly. -/
def filteredPool (session : String) (pool : List Question) : List Question :=
  if session = "all" then pool
  else pool.filter (fun q => sessionKeyFilter q == session)

/-! ### Facts about the grouping -/

theorem insertByKey_ne_nil (k : String) (q : Question)
    (gs : List (String × List Question)) : insertByKey k q gs ≠ [] := by
  cases gs with
  | nil => simp [insertByKey]
  | cons g rest =>
    obtain ⟨k', qs⟩ := g
    simp only [insertByKey]
    split <;> simp

theorem map_fst_insertByKey (k : String) (q : Question)
    (gs : List (String × List Question)) :
    (insertByKey k q gs).map Prod.fst =
      if k ∈ gs.map Prod.fst then gs.map Prod.fst
      else gs.map Prod.fst ++ [k] := by
  induction gs with
  | nil => simp [insertByKey]
  | cons g rest ih =>
    obtain ⟨k', qs⟩ := g
    simp only [insertByKey, List.map_cons]
    by_cases h : k' = k
    · subst h
      simp [List.mem_cons]
    · rw [if_neg h]
      simp only [List.map_cons, ih]
      by_cases hm : k ∈ rest.map Prod.fst
      · rw [if_pos hm, if_pos (List.mem_cons_of_mem _ hm)]
      · rw [if_neg hm,
          if_neg (by
            simp only [List.mem_cons]
            rintro (hh | hh)
            · exact h hh.symm
            · exact hm hh)]
        simp

theorem insertByKey_snd_ne_nil (k : String) (q : Question)
    (gs : List (String × List Question))
    (h : ∀ g ∈ gs, g.2 ≠ []) : ∀ g ∈ insertByKey k q gs, g.2 ≠ [] := by
  induction gs with
  | nil =>
    intro g hg
    simp only [insertByKey, List.mem_singleton] at hg
    subst hg
    simp
  | cons g' rest ih =>
    obtain ⟨k', qs⟩ := g'
    simp only [insertByKey]
    split
    · intro g hg
      rcases List.mem_cons.1 hg with rfl | hgr
      · simp
      · exact h g (List.mem_cons_of_mem _ hgr)
    · intro g hg
      rcases List.mem_cons.1 hg with rfl | hgr
      · exact h _ (List.mem_cons_self _ _)
      · exact ih (fun g hg => h g (List.mem_cons_of_mem _ hg)) g hgr

theorem sum_insertByKey (k : String) (q : Question)
    (gs : List (String × List Question)) :
    ((insertByKey k q gs).map (fun g => g.2.length)).sum
      = ((gs.map (fun g => g.2.length)).sum) + 1 := by
  induction gs with
  | nil => simp [insertByKey]
  | cons g' rest ih =>
    obtain ⟨k', qs⟩ := g'
    simp only [insertByKey]
    split
    · simp only [List.map_cons, List.sum_cons]
      simp
      omega
    · simp only [List.map_cons, List.sum_cons, ih]
      omega

theorem foldl_groupStep_ne_nil (key : Question → String) (l : List Question) :
    ∀ acc, acc ≠ [] → l.foldl (groupStep key) acc ≠ [] := by
  induction l with
  | nil => intro acc h; simpa using h
  | cons q l' ih =>
    intro acc _
    rw [List.foldl_cons]
    exact ih _ (insertByKey_ne_nil _ _ _)

theorem questionsBySession_ne_nil (key : Question → String) (l : List Question)
    (h : l ≠ []) : questionsBySession key l ≠ [] := by
  cases l with
  | nil => exact absurd rfl h
  | cons q l' =>
    unfold questionsBySession
    rw [List.foldl_cons]
    exact foldl_groupStep_ne_nil key l' _ (insertByKey_ne_nil _ _ _)

theorem foldl_groupStep_snd_ne_nil (key : Question → String) (l : List Question) :
    ∀ acc, (∀ g ∈ acc, g.2 ≠ []) →
      ∀ g ∈ l.foldl (groupStep key) acc, g.2 ≠ [] := by
  induction l with
  | nil => intro acc h; simpa using h
  | cons q l' ih =>
    intro acc h
    rw [List.foldl_cons]
    exact ih _ (insertByKey_snd_ne_nil _ _ _ h)

theorem questionsBySession_snd_ne_nil (key : Question → String)
    (l : List Question) : ∀ g ∈ questionsBySession key l, g.2 ≠ [] :=
  foldl_groupStep_snd_ne_nil key l [] (by simp)

theorem foldl_groupStep_sum (key : Question → String) (l : List Question) :
    ∀ acc, ((l.foldl (groupStep key) acc).map (fun g => g.2.length)).sum
      = ((acc.map (fun g => g.2.length)).sum) + l.length := by
  induction l with
  | nil => intro acc; simp
  | cons q l' ih =>
    intro acc
    rw [List.foldl_cons, ih]
    simp only [groupStep, sum_insertByKey, List.length_cons]
    omega

theorem questionsBySession_sum (key : Question → String) (l : List Question) :
    ((questionsBySession key l).map (fun g => g.2.length)).sum = l.length := by
  have h := foldl_groupStep_sum key l []
  simpa [questionsBySession] using h

theorem foldl_groupStep_keys_nodup (key : Question → String) (l : List Question) :
    ∀ acc, ((acc.map Prod.fst).Nodup) →
      ((l.foldl (groupStep key) acc).map Prod.fst).Nodup := by
  induction l with
  | nil => intro acc h; simpa using h
  | cons q l' ih =>
    intro acc h
    rw [List.foldl_cons]
    apply ih
    simp only [groupStep, map_fst_insertByKey]
    split
    · exact h
    · next hmem => simp [List.nodup_append, h, hmem]

theorem foldl_groupStep_keys_toFinset (key : Question → String) (l : List Question) :
    ∀ acc, ((l.foldl (groupStep key) acc).map Prod.fst).toFinset
      = (acc.map Prod.fst).toFinset ∪ (l.map key).toFinset := by
  induction l with
  | nil => intro acc; simp
  | cons q l' ih =>
    intro acc
    rw [List.foldl_cons, ih]
    simp only [groupStep, map_fst_insertByKey]
    split
    · next hmem =>
      ext x
      simp only [Finset.mem_union, List.mem_toFinset, List.map_cons,
        List.mem_cons]
      constructor
      · rintro (hx | hx)
        · exact Or.inl hx
        · exact Or.inr (Or.inr hx)
      · rintro (hx | hx | hx)
        · exact Or.inl hx
        · exact Or.inl (hx ▸ hmem)
        · exact Or.inr hx
    · ext x
      simp only [Finset.mem_union, List.mem_toFinset, List.map_cons,
        List.mem_cons, List.mem_append, List.mem_singleton,
        List.not_mem_nil, or_false]
      constructor
      · rintro ((hx | hx) | hx)
        · exact Or.inl hx
        · exact Or.inr (Or.inl hx)
        · exact Or.inr (Or.inr hx)
      · rintro (hx | hx | hx)
        · exact Or.inl (Or.inl hx)
        · exact Or.inl (Or.inr hx)
        · exact Or.inr hx

theorem length_questionsBySession (key : Question → String) (l : List Question) :
    (questionsBySession key l).length = ((l.map key).toFinset).card := by
  have h1 : ((questionsBySession key l).map Prod.fst).Nodup :=
    foldl_groupStep_keys_nodup key l [] (by simp)
  have h2 : ((questionsBySession key l).map Prod.fst).toFinset
      = (l.map key).toFinset := by
    have h := foldl_groupStep_keys_toFinset key l []
    simpa [questionsBySession] using h
  calc (questionsBySession key l).length
      = ((questionsBySession key l).map Prod.fst).length := by simp
    _ = ((questionsBySession key l).map Prod.fst).toFinset.card :=
        (List.toFinset_card_of_nodup h1).symm
    _ = ((l.map key).toFinset).card := by rw [h2]

/-! ### Facts about lists and ceiling division -/

theorem take_ne_nil_of_ne_nil {l : List α} (h : l ≠ []) {n : Nat}
    (hn : 0 < n) : l.take n ≠ [] := by
  cases l with
  | nil => exact absurd rfl h
  | cons x xs =>
    cases n with
    | zero => omega
    | succ m => simp

theorem perm_ne_nil {l l' : List α} (h : l' ~ l) (hl : l ≠ []) : l' ≠ [] := by
  intro h0
  exact hl ((h0 ▸ h).symm.eq_nil)

theorem ceilDiv_pos {a b : Nat} (ha : 0 < a) (hb : 0 < b) : 0 < ceilDiv a b := by
  unfold ceilDiv
  exact Nat.div_pos (by omega) hb

/-! ### Concrete fixtures -/

/-- Sample question whose correct label is `"A"`. -/
def qA : Question :=
  { number := "1", question_text := "t1",
    alternatives := some [⟨"A", "x"⟩, ⟨"B", "y"⟩],
    pdf_filename := some "T1.pdf", correct_answer := "A" }

/-- Sample question whose correct label is `"B"`, from another topic. -/
def qB : Question :=
  { number := "2", question_text := "t2",
    alternatives := some [⟨"A", "u"⟩, ⟨"B", "v"⟩],
    pdf_filename := some "T2.pdf", correct_answer := "B" }

/-- An alternative carrying the lowercase form of the label of `qA`'s
correct answer. -/
def altALower : Alternative := ⟨"a", "x"⟩

/-- An alternative whose label does not match `qA`'s correct answer. -/
def altB : Alternative := ⟨"B", "y"⟩

/-- A freshly presented two-question round at its first question. -/
def sActive : RoundState :=
  { activeQuestions := [qA, qB], currentQuestionIndex := 0,
    currentQuestion := some qA, streak := 0, answerStatus := none,
    selectedAlternativeLabel := none, incorrectlyAnsweredQuestions := [],
    answerHistory := [] }

/-- A completed one-question round (terminal state). -/
def terminalState : RoundState :=
  { activeQuestions := [qA], currentQuestionIndex := 0,
    currentQuestion := none, streak := 1, answerStatus := none,
    selectedAlternativeLabel := none, incorrectlyAnsweredQuestions := [],
    answerHistory := [("1", ("A", true))] }

/-- A state at the second question whose outcome for the first answer is
still pending display. -/
def pendingOutcomeState : RoundState :=
  { activeQuestions := [qA, qB], currentQuestionIndex := 1,
    currentQuestion := some qB, streak := 1,
    answerStatus := some AnswerStatus.correct,
    selectedAlternativeLabel := some "A",
    incorrectlyAnsweredQuestions := [],
    answerHistory := [("1", ("A", true))] }

/-! ### C5: streak arithmetic -/

/-- C5: with a question pending and no outcome recorded yet, a correct
answer (labels compared case-insensitively) sets the streak to its
previous value plus one, an incorrect answer resets it to zero and a skip
leaves it unchanged. -/
theorem c5_streak (s : RoundState) (q : Question) (alt : Alternative)
    (hq : s.currentQuestion = some q) (hs : s.answerStatus = none) :
    (jsToUpper alt.label = jsToUpper q.correct_answer →
        (handleAnswer alt s).streak = s.streak + 1) ∧
    (jsToUpper alt.label ≠ jsToUpper q.correct_answer →
        (handleAnswer alt s).streak = 0) ∧
    (handleSkip s).streak = s.streak := by
  refine ⟨fun h => ?_, fun h => ?_, ?_⟩
  · simp [handleAnswer, hq, hs, h]
  · simp [handleAnswer, hq, hs, h]
  · simp [handleSkip, hq, hs]

theorem c5_witness :
    (handleAnswer altALower sActive).streak = sActive.streak + 1 ∧
    (handleAnswer altB sActive).streak = 0 ∧
    (handleSkip sActive).streak = sActive.streak :=
  ⟨(c5_streak sActive qA altALower rfl rfl).1 (by decide),
   (c5_streak sActive qA altB rfl rfl).2.1 (by decide),
   (c5_streak sActive qA altB rfl rfl).2.2⟩

/-! ### C2: goBack -/

/-- C2 counterexample: the claim that goBack is accepted only when no
answer or skip outcome is pending display fails on the code.
`handleGoBack` checks `currentQuestionIndex > 0` but not `answerStatus`:
in a state with cursor 1 and a pending `correct` outcome the call is
accepted and changes the state (the rejection while an outcome is shown
is enforced only by the disabled Back button of the presentation
layer). -/
theorem c2_counterexample :
    0 < pendingOutcomeState.currentQuestionIndex ∧
    pendingOutcomeState.answerStatus ≠ none ∧
    handleGoBack (fun _ => 0) pendingOutcomeState ≠ pendingOutcomeState :=
  ⟨by decide, by decide, by decide⟩

/-- C2 (amended): goBack is accepted whenever `cursor > 0`, regardless of
a pending outcome; when accepted it decrements the cursor by exactly one,
clears any pending outcome, and leaves streak, mistakes, the recorded
answer history and the ordered question list unchanged; at cursor 0 it is
a no-op. -/
theorem c2_goBack_amended (rand : Nat → Nat) (s : RoundState) :
    (0 < s.currentQuestionIndex →
      (handleGoBack rand s).currentQuestionIndex = s.currentQuestionIndex - 1 ∧
      (handleGoBack rand s).answerStatus = none ∧
      (handleGoBack rand s).selectedAlternativeLabel = none ∧
      (handleGoBack rand s).streak = s.streak ∧
      (handleGoBack rand s).incorrectlyAnsweredQuestions
          = s.incorrectlyAnsweredQuestions ∧
      (handleGoBack rand s).answerHistory = s.answerHistory ∧
      (handleGoBack rand s).activeQuestions = s.activeQuestions) ∧
    (s.currentQuestionIndex = 0 → handleGoBack rand s = s) := by
  constructor
  · intro h
    obtain ⟨aq, idx, cq, st, ast, sel, inc, hist⟩ := s
    simp only [handleGoBack, clearFeedback]
    rw [if_pos h]
    split <;> simp
  · intro h
    obtain ⟨aq, idx, cq, st, ast, sel, inc, hist⟩ := s
    simp only [handleGoBack, clearFeedback]
    rw [if_neg (by simp_all)]

theorem c2_witness :
    (handleGoBack (fun _ => 0) pendingOutcomeState).currentQuestionIndex
        = pendingOutcomeState.currentQuestionIndex - 1 ∧
    (handleGoBack (fun _ => 0) pendingOutcomeState).answerStatus = none ∧
    (handleGoBack (fun _ => 0) pendingOutcomeState).selectedAlternativeLabel = none ∧
    (handleGoBack (fun _ => 0) pendingOutcomeState).streak
        = pendingOutcomeState.streak ∧
    (handleGoBack (fun _ => 0) pendingOutcomeState).incorrectlyAnsweredQuestions
        = pendingOutcomeState.incorrectlyAnsweredQuestions ∧
    (handleGoBack (fun _ => 0) pendingOutcomeState).answerHistory
        = pendingOutcomeState.answerHistory ∧
    (handleGoBack (fun _ => 0) pendingOutcomeState).activeQuestions
        = pendingOutcomeState.activeQuestions :=
  (c2_goBack_amended (fun _ => 0) pendingOutcomeState).1 (by decide)

/-! ### C3: invalid engine calls are no-ops -/

/-- C3: every invalid engine call is a no-op that leaves the whole state
unchanged (and, all handlers being total functions, none of them can
fail): answering or skipping with no pending question or with an outcome
already recorded returns the state untouched, goBack at cursor 0 returns
the state untouched, and advancing an already terminal round (no pending
question and cursor at or past the last position) returns the state
untouched.  The last two conjuncts show that the feedback-clear invariant
used for the terminal case holds in every reachable state: each handler
preserves it. -/
theorem c3_invalid_calls_noop :
    (∀ (alt : Alternative) (s : RoundState),
        s.currentQuestion = none ∨ s.answerStatus ≠ none →
        handleAnswer alt s = s) ∧
    (∀ s : RoundState,
        s.currentQuestion = none ∨ s.answerStatus ≠ none →
        handleSkip s = s) ∧
    (∀ (rand : Nat → Nat) (s : RoundState),
        s.currentQuestionIndex = 0 → handleGoBack rand s = s) ∧
    (∀ (rand : Nat → Nat) (skipped : Bool) (s : RoundState),
        FeedbackInv s → s.currentQuestion = none →
        s.activeQuestions.length - 1 ≤ s.currentQuestionIndex →
        loadNextQuestion rand skipped s = s) ∧
    (∀ (op : EngineOp) (s : RoundState), FeedbackInv s → FeedbackInv (stepOp op s)) := by
  refine ⟨?_, ?_, ?_, ?_, ?_⟩
  · intro alt s h
    obtain ⟨aq, idx, cq, st, ast, sel, inc, hist⟩ := s
    cases cq <;> cases ast <;> simp_all [handleAnswer]
  · intro s h
    obtain ⟨aq, idx, cq, st, ast, sel, inc, hist⟩ := s
    cases cq <;> cases ast <;> simp_all [handleSkip]
  · intro rand s h
    obtain ⟨aq, idx, cq, st, ast, sel, inc, hist⟩ := s
    simp only [handleGoBack, clearFeedback]
    rw [if_neg (by simp_all)]
  · intro rand skipped s hinv hq hlen
    obtain ⟨hast, hsel⟩ := hinv hq
    obtain ⟨aq, idx, cq, st, ast, sel, inc, hist⟩ := s
    simp only at hq hast hsel hlen
    subst hq hast hsel
    simp only [loadNextQuestion, clearFeedback]
    rw [if_neg (by omega)]
  · intro op s hinv
    cases op with
    | answer alt =>
      obtain ⟨aq, idx, cq, st, ast, sel, inc, hist⟩ := s
      cases cq with
      | none => exact hinv
      | some q =>
        cases ast with
        | some st' => exact hinv
        | none =>
          simp only [stepOp, handleAnswer]
          split
          · intro hcontra; simp at hcontra
          · intro hcontra; simp at hcontra
    | skip =>
      obtain ⟨aq, idx, cq, st, ast, sel, inc, hist⟩ := s
      cases cq with
      | none => exact hinv
      | some q =>
        cases ast with
        | some st' => exact hinv
        | none => intro hcontra; simp [stepOp, handleSkip] at hcontra
    | advance rand skipped =>
      obtain ⟨aq, idx, cq, st, ast, sel, inc, hist⟩ := s
      simp only [stepOp, loadNextQuestion, clearFeedback]
      split
      · split
        · intro hcontra; simp at hcontra
        · intro _; exact ⟨rfl, rfl⟩
      · intro _; exact ⟨rfl, rfl⟩
    | back rand =>
      obtain ⟨aq, idx, cq, st, ast, sel, inc, hist⟩ := s
      simp only [stepOp, handleGoBack, clearFeedback]
      split
      · split
        · intro hcontra; simp at hcontra
        · intro _; exact ⟨rfl, rfl⟩
      · exact hinv

theorem c3_witness :
    handleAnswer altALower terminalState = terminalState ∧
    handleSkip terminalState = terminalState ∧
    handleGoBack (fun _ => 0) terminalState = terminalState ∧
    loadNextQuestion (fun _ => 0) false terminalState = terminalState ∧
    FeedbackInv (stepOp EngineOp.skip terminalState) :=
  ⟨c3_invalid_calls_noop.1 altALower terminalState (Or.inl rfl),
   c3_invalid_calls_noop.2.1 terminalState (Or.inl rfl),
   c3_invalid_calls_noop.2.2.1 (fun _ => 0) terminalState rfl,
   c3_invalid_calls_noop.2.2.2.1 (fun _ => 0) false terminalState
     (fun _ => ⟨rfl, rfl⟩) rfl (by decide),
   c3_invalid_calls_noop.2.2.2.2 EngineOp.skip terminalState
     (fun _ => ⟨rfl, rfl⟩)⟩

/-! ### C6: the mistake list -/

/-- Every single engine event either leaves the mistake list alone or
appends one question whose number is not in the list yet. -/
theorem stepOp_mistakes (op : EngineOp) (s : RoundState) :
    (stepOp op s).incorrectlyAnsweredQuestions = s.incorrectlyAnsweredQuestions ∨
    ∃ q : Question,
      s.incorrectlyAnsweredQuestions.any (fun p => p.number == q.number) = false ∧
      (stepOp op s).incorrectlyAnsweredQuestions
        = s.incorrectlyAnsweredQuestions ++ [q] := by
  cases op with
  | answer alt =>
    obtain ⟨aq, idx, cq, st, ast, sel, inc, hist⟩ := s
    cases cq with
    | none => left; rfl
    | some q =>
      cases ast with
      | some st' => left; rfl
      | none =>
        simp only [stepOp, handleAnswer]
        split
        · left; rfl
        · cases hb : inc.any (fun p => p.number == q.number) with
          | true => left; simp [hb]
          | false =>
            right
            exact ⟨q, hb, by simp [hb]⟩
  | skip =>
    obtain ⟨aq, idx, cq, st, ast, sel, inc, hist⟩ := s
    cases cq <;> cases ast <;> exact Or.inl rfl
  | advance rand skipped =>
    obtain ⟨aq, idx, cq, st, ast, sel, inc, hist⟩ := s
    simp only [stepOp, loadNextQuestion, clearFeedback]
    split
    · split
      · left; rfl
      · left; rfl
    · left; rfl
  | back rand =>
    obtain ⟨aq, idx, cq, st, ast, sel, inc, hist⟩ := s
    simp only [stepOp, handleGoBack, clearFeedback]
    split
    · split
      · left; rfl
      · left; rfl
    · left; rfl

/-- One engine event preserves distinctness of the mistake numbers and
only extends the list at its end. -/
theorem stepOp_mistakes_nodup (op : EngineOp) (s : RoundState)
    (h : (s.incorrectlyAnsweredQuestions.map Question.number).Nodup) :
    ((stepOp op s).incorrectlyAnsweredQuestions.map Question.number).Nodup ∧
    ∃ t, (stepOp op s).incorrectlyAnsweredQuestions
          = s.incorrectlyAnsweredQuestions ++ t := by
  rcases stepOp_mistakes op s with heq | ⟨q, hq, heq⟩
  · rw [heq]; exact ⟨h, [], by simp⟩
  · rw [heq]
    refine ⟨?_, [q], rfl⟩
    have hnotmem : q.number ∉ s.incorrectlyAnsweredQuestions.map Question.number := by
      intro hmem
      obtain ⟨p, hp, hpn⟩ := List.mem_map.1 hmem
      have := List.any_eq_false.1 hq p hp
      simp [hpn] at this
    simp [List.nodup_append, h, hnotmem]

/-- C6: within a round, the mistake list only ever grows at its end
(entries are never removed and keep their order of first insertion), and
if the question numbers in it are distinct they stay distinct after any
sequence of engine events — a question is appended at most once no matter
how often it is answered incorrectly across goBack revisits. -/
theorem c6_mistakes_unique (ops : List EngineOp) (s : RoundState)
    (h : (s.incorrectlyAnsweredQuestions.map Question.number).Nodup) :
    ((runOps ops s).incorrectlyAnsweredQuestions.map Question.number).Nodup ∧
    ∃ t, (runOps ops s).incorrectlyAnsweredQuestions
          = s.incorrectlyAnsweredQuestions ++ t := by
  induction ops generalizing s with
  | nil => exact ⟨h, [], by simp [runOps]⟩
  | cons op rest ih =>
    obtain ⟨h1, t1, ht1⟩ := stepOp_mistakes_nodup op s h
    obtain ⟨h2, t2, ht2⟩ := ih (stepOp op s) h1
    refine ⟨h2, t1 ++ t2, ?_⟩
    calc (runOps rest (stepOp op s)).incorrectlyAnsweredQuestions
        = (stepOp op s).incorrectlyAnsweredQuestions ++ t2 := ht2
      _ = s.incorrectlyAnsweredQuestions ++ (t1 ++ t2) := by
          rw [ht1, List.append_assoc]

/-- Event sequence that answers the first question wrongly, goes back to
it and answers it wrongly again. -/
def c6Ops : List EngineOp :=
  [EngineOp.answer altB, EngineOp.advance (fun _ => 0) false,
   EngineOp.back (fun _ => 0), EngineOp.answer altB]

theorem c6_witness :
    ((runOps c6Ops sActive).incorrectlyAnsweredQuestions.map Question.number).Nodup ∧
    ∃ t, (runOps c6Ops sActive).incorrectlyAnsweredQuestions
          = sActive.incorrectlyAnsweredQuestions ++ t :=
  c6_mistakes_unique c6Ops sActive (by decide)

/-! ### C8: goBack then advance -/

/-- C8: from an active state with cursor `i > 0` and no pending outcome,
where the presented question is a reshuffled copy of `ordered[i]`,
performing goBack and then immediately advance (with no intervening
answer or skip) returns to exactly the same cursor, and the question then
presented carries the same choices as before, up to reordering. -/
theorem c8_goBack_advance (r1 r2 : Nat → Nat) (s : RoundState) (q0 qc : Question)
    (hpos : 0 < s.currentQuestionIndex)
    (hlt : s.currentQuestionIndex < s.activeQuestions.length)
    (hstatus : s.answerStatus = none)
    (hq0 : s.activeQuestions[s.currentQuestionIndex]? = some q0)
    (hqc : s.currentQuestion = some qc)
    (halts : altList qc ~ altList q0) :
    (loadNextQuestion r2 false (handleGoBack r1 s)).currentQuestionIndex
        = s.currentQuestionIndex ∧
    ∃ q', (loadNextQuestion r2 false (handleGoBack r1 s)).currentQuestion = some q' ∧
      altList q' ~ altList qc := by
  obtain ⟨aq, idx, cq, st, ast, sel, inc, hist⟩ := s
  simp only at hpos hlt hq0 hqc
  have hprev : idx - 1 < aq.length := by omega
  have hgb : handleGoBack r1 (RoundState.mk aq idx cq st ast sel inc hist)
      = { activeQuestions := aq, currentQuestionIndex := idx - 1,
          currentQuestion := some (shuffleAlternatives r1 (aq.get ⟨idx - 1, hprev⟩)),
          streak := st, answerStatus := none, selectedAlternativeLabel := none,
          incorrectlyAnsweredQuestions := inc, answerHistory := hist } := by
    simp only [handleGoBack, clearFeedback]
    rw [if_pos hpos, List.getElem?_eq_getElem hprev]
    simp [List.get_eq_getElem]
  rw [hgb]
  have hidx : idx - 1 + 1 = idx := by omega
  have hcond : (0 : Nat) < aq.length ∧ idx - 1 < aq.length - 1 := by
    constructor <;> omega
  simp only [loadNextQuestion, clearFeedback]
  rw [if_pos hcond, hidx, hq0]
  refine ⟨rfl, shuffleAlternatives r2 q0, rfl, ?_⟩
  exact (shuffleAlternatives_altList_perm r2 q0).trans halts.symm

/-- State at the second question of a two-question round whose presented
copy has the alternatives of `qB` in reversed order. -/
def c8State : RoundState :=
  { activeQuestions := [qA, qB], currentQuestionIndex := 1,
    currentQuestion := some { qB with alternatives := some [⟨"B", "v"⟩, ⟨"A", "u"⟩] },
    streak := 0, answerStatus := none, selectedAlternativeLabel := none,
    incorrectlyAnsweredQuestions := [], answerHistory := [] }

theorem c8_witness :
    (loadNextQuestion (fun _ => 0) false (handleGoBack (fun _ => 0) c8State)).currentQuestionIndex
        = c8State.currentQuestionIndex ∧
    ∃ q', (loadNextQuestion (fun _ => 0) false
            (handleGoBack (fun _ => 0) c8State)).currentQuestion = some q' ∧
      altList q' ~ altList { qB with alternatives := some [⟨"B", "v"⟩, ⟨"A", "u"⟩] } :=
  c8_goBack_advance (fun _ => 0) (fun _ => 0) c8State qB
    { qB with alternatives := some [⟨"B", "v"⟩, ⟨"A", "u"⟩] }
    (by decide) (by decide) rfl (by decide) rfl (by decide)

/-! ### C1: stratified sampling for the all-topics round -/

/-- C1: for every pool and every round size at least 1, the question list
built by `startNewQuizRound` for topic `"all"` is exactly the
stratified-sampling pipeline the specification describes: partition the
pool by topic, take up to `ceil(size / numGroups)` from a shuffle of each
group, concatenate, shuffle, truncate to `size` (the fallback never fires
on this path, because with a non-empty pool the stratified sample is
itself non-empty). -/
theorem c1_startRound_all_stratified
    (shufGroup : String → List Question → List Question)
    (shufFinal shufTopic shufFallback : List Question → List Question)
    (randAlt : Nat → Nat)
    (hg : ∀ k l, shufGroup k l ~ l) (hf : ∀ l, shufFinal l ~ l)
    (pool : List Question) (n : Nat) (hn : 0 < n) :
    questionsForRound shufGroup shufFinal shufTopic shufFallback pool "all" n
      = stratifiedSampleSpec shufGroup shufFinal pool n ∧
    (∀ st, startNewQuizRound shufGroup shufFinal shufTopic shufFallback randAlt
        pool "all" n = some st →
      st.activeQuestions = stratifiedSampleSpec shufGroup shufFinal pool n) := by
  have hmain : questionsForRound shufGroup shufFinal shufTopic shufFallback pool "all" n
      = stratifiedSampleSpec shufGroup shufFinal pool n := ?_
  case _ =>
    refine ⟨hmain, fun st hst => ?_⟩
    simp only [startNewQuizRound] at hst
    split at hst
    · exact absurd hst (by simp)
    · rcases hh : (questionsForRound shufGroup shufFinal shufTopic shufFallback
          pool "all" n).head? with _ | q0
      · rw [hh] at hst
        simp at hst
      · rw [hh] at hst
        simp only [Option.some.injEq] at hst
        rw [← hst]
        exact hmain
  by_cases hpool : pool = []
  · subst hpool
    have hemp : shufFinal [] = [] := (hf []).eq_nil
    simp [questionsForRound, sampledForSession, getSampledQuestions,
      stratifiedSampleSpec, questionsBySession, hemp]
  · obtain ⟨q0, hq0⟩ := List.exists_mem_of_ne_nil pool hpool
    have hc : 0 < ((pool.map sessionKeyAll).toFinset).card := by
      apply Finset.card_pos.mpr
      exact ⟨sessionKeyAll q0, List.mem_toFinset.mpr (List.mem_map_of_mem _ hq0)⟩
    have hcard : (questionsBySession sessionKeyAll pool).length
        = ((pool.map sessionKeyAll).toFinset).card :=
      length_questionsBySession _ _
    have hbase_eq : sampledForSession shufGroup shufFinal shufTopic pool "all" n
        = stratifiedSampleSpec shufGroup shufFinal pool n := by
      simp only [sampledForSession, if_pos rfl, stratifiedSampleSpec,
        getSampledQuestions]
      rw [if_pos hc, hcard]
      simp
    have hne : stratifiedSampleSpec shufGroup shufFinal pool n ≠ [] := by
      obtain ⟨g, rest, hgr⟩ := List.exists_cons_of_ne_nil
        (questionsBySession_ne_nil sessionKeyAll pool hpool)
      have hperGroup : 0 < ceilDiv n (questionsBySession sessionKeyAll pool).length :=
        ceilDiv_pos hn (by rw [hgr]; simp)
      have hg2 : g.2 ≠ [] :=
        questionsBySession_snd_ne_nil _ _ g (by rw [hgr]; exact List.mem_cons_self _ _)
      have htake : (shufGroup g.1 g.2).take
          (ceilDiv n (questionsBySession sessionKeyAll pool).length) ≠ [] :=
        take_ne_nil_of_ne_nil (perm_ne_nil (hg g.1 g.2) hg2) hperGroup
      simp only [stratifiedSampleSpec]
      intro hcontra
      rcases List.take_eq_nil_iff.1 hcontra with h0 | h0
      · omega
      · have hflat : ((questionsBySession sessionKeyAll pool).map
            (fun g => (shufGroup g.1 g.2).take
              (ceilDiv n (questionsBySession sessionKeyAll pool).length))).flatten
            = [] := (h0 ▸ hf _).symm.eq_nil
        rw [hgr, List.map_cons, List.flatten_cons] at hflat
        rw [hgr] at htake
        exact htake (List.append_eq_nil.1 hflat).1
    have hbase_ne : sampledForSession shufGroup shufFinal shufTopic pool "all" n ≠ [] :=
      hbase_eq ▸ hne
    simp only [questionsForRound]
    rw [if_neg (fun hc' => hbase_ne (List.length_eq_zero.1 hc'.1))]
    exact hbase_eq

theorem c1_witness :
    questionsForRound (fun _ l => l) (fun l => l) (fun l => l) (fun l => l)
        [qA, qB] "all" 1
      = stratifiedSampleSpec (fun _ l => l) (fun l => l) [qA, qB] 1 :=
  (c1_startRound_all_stratified (fun _ l => l) (fun l => l) (fun l => l)
    (fun l => l) (fun _ => 0) (fun _ l => List.Perm.refl l)
    (fun l => List.Perm.refl l) [qA, qB] 1 (by decide)).1

/-! ### C4: the fallback policy -/

/-- C4: with a positive round size, whenever topic filtering and sampling
yield zero questions while the pool is non-empty, the round is re-sampled
as the first `min(size, 5)` questions of a shuffle of the whole pool; and
`startNewQuizRound` yields no round exactly when the unfiltered pool is
empty. -/
theorem c4_fallback_policy
    (shufGroup : String → List Question → List Question)
    (shufFinal shufTopic shufFallback : List Question → List Question)
    (randAlt : Nat → Nat) (hfb : ∀ l, shufFallback l ~ l)
    (pool : List Question) (session : String) (n : Nat) (hn : 0 < n) :
    (sampledForSession shufGroup shufFinal shufTopic pool session n = [] →
      pool ≠ [] →
      questionsForRound shufGroup shufFinal shufTopic shufFallback pool session n
        = (shufFallback pool).take (min n 5)) ∧
    (startNewQuizRound shufGroup shufFinal shufTopic shufFallback randAlt
        pool session n = none ↔ pool = []) := by
  have hfallback : sampledForSession shufGroup shufFinal shufTopic pool session n = [] →
      pool ≠ [] →
      questionsForRound shufGroup shufFinal shufTopic shufFallback pool session n
        = (shufFallback pool).take (min n 5) := by
    intro hbase hpool
    simp only [questionsForRound]
    rw [if_pos ⟨by rw [hbase]; rfl, List.length_pos.2 hpool, hn⟩]
    rw [List.take_eq_take]
    rw [(hfb pool).length_eq]
    omega
  refine ⟨hfallback, ?_, ?_⟩
  · intro h
    by_contra hpool
    have hqs : questionsForRound shufGroup shufFinal shufTopic shufFallback
        pool session n ≠ [] := by
      by_cases hbase : sampledForSession shufGroup shufFinal shufTopic pool session n = []
      · rw [hfallback hbase hpool]
        exact take_ne_nil_of_ne_nil (perm_ne_nil (hfb pool) hpool) (by omega)
      · simp only [questionsForRound]
        rw [if_neg (fun hc' => hbase (List.length_eq_zero.1 hc'.1))]
        exact hbase
    obtain ⟨q, qs', hq⟩ := List.exists_cons_of_ne_nil hqs
    simp only [startNewQuizRound] at h
    rw [if_neg (by simp [List.length_eq_zero, hpool]), hq] at h
    simp at h
  · intro h
    subst h
    simp [startNewQuizRound]

theorem c4_witness :
    questionsForRound (fun _ l => l) (fun l => l) (fun l => l) (fun l => l)
        [qA] "nope" 3 = ([qA] : List Question).take (min 3 5) ∧
    (startNewQuizRound (fun _ l => l) (fun l => l) (fun l => l) (fun l => l)
        (fun _ => 0) [qA] "nope" 3 = none ↔ ([qA] : List Question) = []) :=
  ⟨(c4_fallback_policy (fun _ l => l) (fun l => l) (fun l => l) (fun l => l)
      (fun _ => 0) (fun l => List.Perm.refl l) [qA] "nope" 3 (by decide)).1
      (by decide) (by decide),
   (c4_fallback_policy (fun _ l => l) (fun l => l) (fun l => l) (fun l => l)
      (fun _ => 0) (fun l => List.Perm.refl l) [qA] "nope" 3 (by decide)).2⟩

/-! ### C7: length bounds on the ordered round -/

/-- Length bound for the stratified sample: it never exceeds the pool
size. -/
theorem getSampledQuestions_length_le
    (shufGroup : String → List Question → List Question)
    (shufFinal : List Question → List Question)
    (hg : ∀ k l, shufGroup k l ~ l) (hf : ∀ l, shufFinal l ~ l)
    (l : List Question) (p : Nat) :
    (getSampledQuestions shufGroup shufFinal l p).length ≤ l.length := by
  unfold getSampledQuestions
  rw [(hf _).length_eq, List.length_flatten, List.map_map]
  calc ((questionsBySession sessionKeyAll l).map
        (List.length ∘ fun g => (shufGroup g.1 g.2).take p)).sum
      ≤ ((questionsBySession sessionKeyAll l).map (fun g => g.2.length)).sum := by
        apply List.sum_le_sum
        intro g _
        simp only [Function.comp_apply, List.length_take]
        rw [(hg g.1 g.2).length_eq]
        omega
    _ = l.length := questionsBySession_sum _ _

/-- C7: the ordered question list of a round is never longer than the
requested size, never longer than the topic-filtered pool when it was
obtained without the fallback, and never longer than the whole pool when
the fallback fired. -/
theorem c7_round_length_bounds
    (shufGroup : String → List Question → List Question)
    (shufFinal shufTopic shufFallback : List Question → List Question)
    (hg : ∀ k l, shufGroup k l ~ l) (hf : ∀ l, shufFinal l ~ l)
    (ht : ∀ l, shufTopic l ~ l) (hfb : ∀ l, shufFallback l ~ l)
    (pool : List Question) (session : String) (n : Nat) :
    (questionsForRound shufGroup shufFinal shufTopic shufFallback
        pool session n).length ≤ n ∧
    (sampledForSession shufGroup shufFinal shufTopic pool session n ≠ [] →
      (questionsForRound shufGroup shufFinal shufTopic shufFallback
          pool session n).length ≤ (filteredPool session pool).length) ∧
    (sampledForSession shufGroup shufFinal shufTopic pool session n = [] →
      (questionsForRound shufGroup shufFinal shufTopic shufFallback
          pool session n).length ≤ pool.length) := by
  by_cases hbase : sampledForSession shufGroup shufFinal shufTopic pool session n = []
  · have hq : questionsForRound shufGroup shufFinal shufTopic shufFallback
        pool session n
        = if 0 < pool.length ∧ 0 < n then
            (shufFallback pool).take (min n (min 5 pool.length))
          else sampledForSession shufGroup shufFinal shufTopic pool session n := by
      simp only [questionsForRound]
      by_cases hcond : 0 < pool.length ∧ 0 < n
      · rw [if_pos ⟨by rw [hbase]; rfl, hcond.1, hcond.2⟩, if_pos hcond]
      · rw [if_neg (fun hc' => hcond ⟨hc'.2.1, hc'.2.2⟩), if_neg hcond]
    refine ⟨?_, fun hne => absurd hbase hne, fun _ => ?_⟩
    · rw [hq]
      split
      · rw [List.length_take]; omega
      · rw [hbase]; simp
    · rw [hq]
      split
      · rw [List.length_take, (hfb pool).length_eq]; omega
      · rw [hbase]; simp
  · have hq : questionsForRound shufGroup shufFinal shufTopic shufFallback
        pool session n
        = sampledForSession shufGroup shufFinal shufTopic pool session n := by
      simp only [questionsForRound]
      rw [if_neg (fun hc' => hbase (List.length_eq_zero.1 hc'.1))]
    refine ⟨?_, fun _ => ?_, fun heq => absurd heq hbase⟩
    · rw [hq]
      simp only [sampledForSession]
      split
      · rw [List.length_take]; omega
      · rw [List.length_take]; omega
    · rw [hq]
      simp only [sampledForSession, filteredPool]
      by_cases hall : session = "all"
      · rw [if_pos hall, if_pos hall]
        rw [List.length_take]
        exact le_trans (Nat.min_le_right n _)
          (getSampledQuestions_length_le _ _ hg hf _ _)
      · rw [if_neg hall, if_neg hall]
        rw [List.length_take, (ht _).length_eq]
        omega

theorem c7_witness :
    (questionsForRound (fun _ l => l) (fun l => l) (fun l => l) (fun l => l)
        [qA, qB] "all" 1).length ≤ 1 ∧
    (questionsForRound (fun _ l => l) (fun l => l) (fun l => l) (fun l => l)
        [qA, qB] "all" 1).length ≤ (filteredPool "all" [qA, qB]).length :=
  ⟨(c7_round_length_bounds (fun _ l => l) (fun l => l) (fun l => l)
      (fun l => l) (fun _ l => List.Perm.refl l) (fun l => List.Perm.refl l)
      (fun l => List.Perm.refl l) (fun l => List.Perm.refl l)
      [qA, qB] "all" 1).1,
   (c7_round_length_bounds (fun _ l => l) (fun l => l) (fun l => l)
      (fun l => l) (fun _ l => List.Perm.refl l) (fun l => List.Perm.refl l)
      (fun l => List.Perm.refl l) (fun l => List.Perm.refl l)
      [qA, qB] "all" 1).2.1 (by decide)⟩

end Quiz
